import Mathlib

/-!
Shallow embedding of the in-memory note store of the Notes API
(src/notes_backend/src/api/main.py, class InMemoryNoteStore).

Modelling choices:
* The Python dict `self._notes` (insertion-ordered, keyed by the integer
  note id, which always equals the `id` field of the stored note) is
  modelled as a list of notes in insertion order; lookup finds the first
  note whose `id` field matches, insertion of a fresh id appends at the
  end, in-place mutation replaces the first matching entry, deletion
  erases the first matching entry.
* Timestamps (`datetime.now(timezone.utc)`) are modelled as natural
  numbers supplied explicitly by the caller at each call that reads the
  clock, one per `_utcnow()` call site.
* The lock only serialises calls; each operation is a pure state
  transformer here.
-/

namespace NotesApi

/-- The pydantic model `Note`: id, title, content, tags and the two
timestamps. -/
structure Note where
  id : Nat
  title : String
  content : String
  tags : List String
  created_at : Nat
  updated_at : Nat
deriving Repr, DecidableEq

/-- The pydantic model `NoteCreate`: title, content and optional tags. -/
structure NoteCreate where
  title : String
  content : String
  tags : Option (List String)
deriving Repr, DecidableEq

/-- The pydantic model `NoteUpdate`: every field optional. -/
structure NoteUpdate where
  title : Option String
  content : Option String
  tags : Option (List String)
deriving Repr, DecidableEq

/-- The pydantic model `PaginatedNotes`. -/
structure PaginatedNotes where
  items : List Note
  total : Nat
  page : Nat
  page_size : Nat
deriving Repr, DecidableEq

/-- The mutable state of `InMemoryNoteStore`: the note map (as an
insertion-ordered list) and the id counter `_next_id`. -/
structure StoreState where
  notes : List Note
  nextId : Nat
deriving Repr, DecidableEq

/-- `InMemoryNoteStore.__init__`: empty map, counter at 1. -/
def initState : StoreState := { notes := [], nextId := 1 }

/-- Python `str.lower()` on the character sequence of a string
(ASCII-adequate model via `Char.toLower`). -/
def lowerChars (s : String) : List Char := s.data.map Char.toLower

/-- The filter predicate of `list_notes`:
`(q_lower in n.title.lower()) or (q_lower in n.content.lower())`,
where Python `in` is contiguous-substring containment. -/
def matchesQuery (qLower : List Char) (n : Note) : Bool :=
  decide (qLower <:+: lowerChars n.title) || decide (qLower <:+: lowerChars n.content)

/-- The first half of `list_notes`: `notes = list(self._notes.values())`
followed by `if q:` filtering (Python strings are falsy exactly when
empty, so a `None` or empty query skips the filter). -/
def filteredNotes (s : StoreState) (q : Option String) : List Note :=
  match q with
  | none => s.notes
  | some qs =>
      if qs.data.isEmpty then s.notes
      else s.notes.filter (matchesQuery (lowerChars qs))

/-- `InMemoryNoteStore.list_notes`: filter, count, then slice
`notes[start:end]` with `start = (page - 1) * page_size` and
`end = start + page_size` (Python slices clip to the available range). -/
def list_notes (s : StoreState) (q : Option String) (page page_size : Nat) : PaginatedNotes :=
  let notes := filteredNotes s q
  let total := notes.length
  let start := (page - 1) * page_size
  let page_items := (notes.drop start).take page_size
  { items := page_items, total := total, page := page, page_size := page_size }

/-- `InMemoryNoteStore.create_note`: build the note at the current
counter value with both timestamps equal to `now` and
`tags = data.tags or []`, insert it under its id (a fresh key, hence an
append in insertion order), increment the counter, return the note. -/
def create_note (s : StoreState) (data : NoteCreate) (now : Nat) : Note × StoreState :=
  let note : Note :=
    { id := s.nextId
      title := data.title
      content := data.content
      tags := data.tags.getD []
      created_at := now
      updated_at := now }
  (note, { notes := s.notes ++ [note], nextId := s.nextId + 1 })

/-- `InMemoryNoteStore.get_note`: `self._notes.get(note_id)`. -/
def get_note (s : StoreState) (note_id : Nat) : Option Note :=
  s.notes.find? (fun n => n.id == note_id)

/-- In-place mutation of the dict entry under `note_id`: the first (and,
for dict keys, only) entry with that id is replaced, keeping its
position. -/
def replaceById (l : List Note) (note_id : Nat) (u : Note) : List Note :=
  match l with
  | [] => []
  | n :: ns => if n.id == note_id then u :: ns else n :: replaceById ns note_id u

/-- The field update performed by `update_note` on the found note: each
patch field that `is not None` overwrites the stored field, and
`updated_at` is refreshed exactly when at least one field was present. -/
def applyPatch (existing : Note) (patch : NoteUpdate) (now : Nat) : Note :=
  let hasField := patch.title.isSome || patch.content.isSome || patch.tags.isSome
  { existing with
    title := patch.title.getD existing.title
    content := patch.content.getD existing.content
    tags := patch.tags.getD existing.tags
    updated_at := if hasField then now else existing.updated_at }

/-- `InMemoryNoteStore.update_note`: `None` when the id is absent,
otherwise mutate the stored note in place and return it. -/
def update_note (s : StoreState) (note_id : Nat) (patch : NoteUpdate) (now : Nat) :
    Option Note × StoreState :=
  match s.notes.find? (fun n => n.id == note_id) with
  | none => (none, s)
  | some existing =>
      let updated := applyPatch existing patch now
      (some updated, { s with notes := replaceById s.notes note_id updated })

/-- `InMemoryNoteStore.delete_note`: `if note_id in self._notes: del ...;
return True` else `return False`. -/
def delete_note (s : StoreState) (note_id : Nat) : Bool × StoreState :=
  if s.notes.any (fun n => n.id == note_id) then
    (true, { s with notes := s.notes.eraseP (fun n => n.id == note_id) })
  else (false, s)

/-- The `NoteCreate` payload built at loop index `i` (0-based) inside
`seed`: f-string title and content, alternating tag sets. -/
def seedData (i : Nat) : NoteCreate :=
  { title := "Sample Note " ++ toString (i + 1)
    content := "This is a sample note #" ++ toString (i + 1) ++ "."
    tags := some (if i % 2 == 0 then ["sample", "demo"] else ["notes"]) }

/-- The loop body of `InMemoryNoteStore.seed`: `k` remaining iterations,
`i` the current 0-based index, `times` the clock value read by the
`create_note` call of each iteration. -/
def seedLoop (s : StoreState) (k i : Nat) (times : Nat → Nat) : StoreState :=
  match k with
  | 0 => s
  | Nat.succ k => seedLoop (create_note s (seedData i) (times i)).2 k (i + 1) times

/-- `InMemoryNoteStore.seed`: run the loop for `count` iterations and
return `count`. -/
def seed (s : StoreState) (count : Nat) (times : Nat → Nat) : Nat × StoreState :=
  (count, seedLoop s count 0 times)

/-- `InMemoryNoteStore.reset`: `self._notes.clear(); self._next_id = 1`. -/
def reset (_s : StoreState) : StoreState := { notes := [], nextId := 1 }

/-- One call into the store, with the clock values it will read. -/
inductive Op where
  | createOp (data : NoteCreate) (now : Nat)
  | getOp (note_id : Nat)
  | listOp (q : Option String) (page page_size : Nat)
  | updateOp (note_id : Nat) (patch : NoteUpdate) (now : Nat)
  | deleteOp (note_id : Nat)
  | seedOp (count : Nat) (times : Nat → Nat)
  | resetOp

/-- `seed`-loop runner that also records the `id` field of each note
returned by the underlying `create_note` calls, in order. -/
def seedRun (s : StoreState) (k i : Nat) (times : Nat → Nat) : List Nat × StoreState :=
  match k with
  | 0 => ([], s)
  | Nat.succ k =>
      let r := create_note s (seedData i) (times i)
      let rest := seedRun r.2 k (i + 1) times
      (r.1.id :: rest.1, rest.2)

/-- Run one operation, recording the ids returned by its `create_note`
calls (directly for `create`, through the loop for `seed`). -/
def opRun (s : StoreState) : Op → List Nat × StoreState
  | .createOp d now =>
      let r := create_note s d now
      ([r.1.id], r.2)
  | .getOp _ => ([], s)
  | .listOp _ _ _ => ([], s)
  | .updateOp i p now => ([], (update_note s i p now).2)
  | .deleteOp i => ([], (delete_note s i).2)
  | .seedOp c times => seedRun s c 0 times
  | .resetOp => ([], reset s)

/-- The final state after one operation. -/
def applyOp (s : StoreState) (op : Op) : StoreState := (opRun s op).2

/-- Run a sequence of operations, concatenating the created-id logs. -/
def runOps (s : StoreState) : List Op → List Nat × StoreState
  | [] => ([], s)
  | op :: ops =>
      let r := opRun s op
      let rest := runOps r.2 ops
      (r.1 ++ rest.1, rest.2)

/-- The id-range invariant of the store: the counter is at least 1 and
every stored id lies in `[1, nextId)`. -/
def idsBounded (s : StoreState) : Prop :=
  1 ≤ s.nextId ∧ ∀ n ∈ s.notes, 1 ≤ n.id ∧ n.id < s.nextId

/-- Dict-key uniqueness: the stored ids are pairwise distinct. -/
def idsNodup (s : StoreState) : Prop :=
  (s.notes.map Note.id).Nodup

/-- The note produced by the `create_note` call of `seed` iteration `i`
when the counter stands at `base`. -/
def seedNote (base i : Nat) (times : Nat → Nat) : Note :=
  { id := base
    title := (seedData i).title
    content := (seedData i).content
    tags := ((seedData i).tags).getD []
    created_at := times i
    updated_at := times i }

/-- A lookup for an id strictly above every stored id finds nothing. -/
theorem find?_eq_none_of_lt (notes : List Note) (m : Nat)
    (h : ∀ n ∈ notes, n.id < m) : notes.find? (fun n => n.id == m) = none := by
  refine List.find?_eq_none.mpr ?_
  intro x hx
  simp only [beq_iff_eq]
  exact Nat.ne_of_lt (h x hx)

/-- Replacing the entry found under `m` by itself leaves the list
unchanged. -/
theorem replaceById_self (m : Nat) :
    ∀ (l : List Note) (a : Note),
      l.find? (fun x => x.id == m) = some a → replaceById l m a = l := by
  intro l
  induction l with
  | nil => intro a h; simp [List.find?] at h
  | cons x xs ih =>
      intro a h
      by_cases hx : (x.id == m) = true
      · have hax : x = a := by
          have := List.find?_cons_of_pos (p := fun n => n.id == m) xs hx
          rw [this] at h
          exact Option.some.inj h
        subst hax
        simp [replaceById, hx]
      · have hfind : xs.find? (fun n => n.id == m) = some a := by
          have := List.find?_cons_of_neg (p := fun n => n.id == m) xs
            (by simpa using hx)
          rw [this] at h
          exact h
        simp [replaceById, hx, ih a hfind]

/-- C8: after `reset()`, listing reports zero notes on an empty page, and
the next `create` call hands out id 1 (the counter is back at 1 over an
empty map). -/
theorem reset_clears_and_rewinds (s : StoreState) (d : NoteCreate) (now : Nat) :
    list_notes (reset s) none 1 10 = { items := [], total := 0, page := 1, page_size := 10 }
    ∧ (create_note (reset s) d now).1.id = 1
    ∧ (reset s).notes = [] ∧ (reset s).nextId = 1 :=
  ⟨rfl, rfl, rfl, rfl⟩

/-- C4: updating an existing note with the all-absent patch returns the
stored note unchanged, leaves `updated_at` untouched, and leaves the
whole store state unchanged. -/
theorem update_empty_patch_noop (s : StoreState) (note_id now : Nat) (n : Note)
    (hget : get_note s note_id = some n) :
    update_note s note_id { title := none, content := none, tags := none } now
      = (some n, s) := by
  have hfind : s.notes.find? (fun x => x.id == note_id) = some n := hget
  have hpatch : applyPatch n { title := none, content := none, tags := none } now = n := rfl
  have hrep : replaceById s.notes note_id n = s.notes := replaceById_self note_id s.notes n hfind
  simp [update_note, hfind, hpatch, hrep]

/-- C4 witness: the empty patch is a no-op on a store holding one note
created at time 5. -/
theorem update_empty_patch_noop_witness :
    get_note (create_note initState { title := "A", content := "B", tags := none } 5).2 1
        = some (create_note initState { title := "A", content := "B", tags := none } 5).1
    ∧ update_note (create_note initState { title := "A", content := "B", tags := none } 5).2 1
        { title := none, content := none, tags := none } 9
      = (some (create_note initState { title := "A", content := "B", tags := none } 5).1,
         (create_note initState { title := "A", content := "B", tags := none } 5).2) :=
  ⟨rfl,
   update_empty_patch_noop
     (create_note initState { title := "A", content := "B", tags := none } 5).2 1 9
     (create_note initState { title := "A", content := "B", tags := none } 5).1 rfl⟩

/-- C2: the note returned by `create` is retrievable under its id and
carries exactly the submitted title, content and tags (empty when
omitted), with equal creation and update timestamps. -/
theorem create_get_roundtrip (s : StoreState) (d : NoteCreate) (now : Nat)
    (h : idsBounded s) :
    get_note (create_note s d now).2 (create_note s d now).1.id
        = some (create_note s d now).1
    ∧ (create_note s d now).1.title = d.title
    ∧ (create_note s d now).1.content = d.content
    ∧ (create_note s d now).1.tags = d.tags.getD []
    ∧ (create_note s d now).1.created_at = (create_note s d now).1.updated_at := by
  have hnone : s.notes.find? (fun n => n.id == s.nextId) = none :=
    find?_eq_none_of_lt s.notes s.nextId (fun n hn => (h.2 n hn).2)
  refine ⟨?_, rfl, rfl, rfl, rfl⟩
  simp [get_note, create_note, List.find?_append, hnone]

/-- C2 witness: round-trip at a concrete store, payload and time. -/
theorem create_get_roundtrip_witness :
    idsBounded initState
    ∧ get_note (create_note initState { title := "A", content := "B", tags := none } 7).2
          (create_note initState { title := "A", content := "B", tags := none } 7).1.id
        = some (create_note initState { title := "A", content := "B", tags := none } 7).1 :=
  ⟨⟨Nat.le_refl 1, by simp [initState]⟩,
   (create_get_roundtrip initState { title := "A", content := "B", tags := none } 7
     ⟨Nat.le_refl 1, by simp [initState]⟩).1⟩

/-- After replacing the entry under `m` (the replacement carrying id `m`),
a lookup for `m` finds the replacement, provided an entry was there. -/
theorem replaceById_find_updated (m : Nat) (u : Note) (hu : u.id = m) :
    ∀ (l : List Note) (a : Note),
      l.find? (fun x => x.id == m) = some a →
      (replaceById l m u).find? (fun x => x.id == m) = some u := by
  intro l
  induction l with
  | nil => intro a h; simp [List.find?] at h
  | cons x xs ih =>
      intro a h
      by_cases hx : (x.id == m) = true
      · simp [replaceById, hx, List.find?_cons_of_pos, hu]
      · have hfind : xs.find? (fun n => n.id == m) = some a := by
          have := List.find?_cons_of_neg (p := fun n => n.id == m) xs
            (by simpa using hx)
          rw [this] at h
          exact h
        have hrec := ih a hfind
        simp only [replaceById, if_neg hx]
        rw [List.find?_cons_of_neg (p := fun x => x.id == m) (replaceById xs m u) hx]
        exact hrec

/-- Replacing the entry under `m` does not change what a lookup for any
other id `j` sees. -/
theorem replaceById_find_frame (m j : Nat) (u : Note) (hu : u.id = m) (hj : j ≠ m) :
    ∀ (l : List Note),
      (replaceById l m u).find? (fun x => x.id == j)
        = l.find? (fun x => x.id == j) := by
  intro l
  induction l with
  | nil => simp [replaceById]
  | cons x xs ih =>
      by_cases hx : (x.id == m) = true
      · have hxm : x.id = m := by simpa using hx
        have hqx : ¬ ((x.id == j) = true) := by simp [hxm]; exact fun h => hj h.symm
        have hqu : ¬ ((u.id == j) = true) := by simp [hu]; exact fun h => hj h.symm
        simp only [replaceById, if_pos hx]
        rw [List.find?_cons_of_neg (p := fun x => x.id == j) xs hqu,
          List.find?_cons_of_neg (p := fun x => x.id == j) xs hqx]
      · simp only [replaceById, if_neg hx]
        by_cases hq : ((x.id == j) = true)
        · rw [List.find?_cons_of_pos (p := fun x => x.id == j) (replaceById xs m u) hq,
            List.find?_cons_of_pos (p := fun x => x.id == j) xs hq]
        · rw [List.find?_cons_of_neg (p := fun x => x.id == j) (replaceById xs m u) hq,
            List.find?_cons_of_neg (p := fun x => x.id == j) xs hq]
          exact ih

/-- C3: updating an existing note with a patch that has at least one
field present replaces exactly the present fields wholesale (tags
included), sets `updated_at` to the clock value, keeps `id` and
`created_at`, keeps the counter, and leaves every other id's lookup
unchanged. -/
theorem update_replaces_patched_fields (s : StoreState) (note_id : Nat)
    (patch : NoteUpdate) (now : Nat) (n : Note)
    (hget : get_note s note_id = some n)
    (hsome : patch.title.isSome = true ∨ patch.content.isSome = true
              ∨ patch.tags.isSome = true) :
    (update_note s note_id patch now).1
        = some { id := n.id, title := patch.title.getD n.title,
                 content := patch.content.getD n.content,
                 tags := patch.tags.getD n.tags,
                 created_at := n.created_at, updated_at := now }
    ∧ get_note (update_note s note_id patch now).2 note_id
        = some { id := n.id, title := patch.title.getD n.title,
                 content := patch.content.getD n.content,
                 tags := patch.tags.getD n.tags,
                 created_at := n.created_at, updated_at := now }
    ∧ (∀ j, j ≠ note_id →
        get_note (update_note s note_id patch now).2 j = get_note s j)
    ∧ (update_note s note_id patch now).2.nextId = s.nextId := by
  have hfind : s.notes.find? (fun x => x.id == note_id) = some n := hget
  have hf : (patch.title.isSome || patch.content.isSome || patch.tags.isSome) = true := by
    rcases hsome with h | h | h <;> simp [h]
  have hap : applyPatch n patch now
      = { id := n.id, title := patch.title.getD n.title,
          content := patch.content.getD n.content,
          tags := patch.tags.getD n.tags,
          created_at := n.created_at, updated_at := now } := by
    simp [applyPatch, hf]
  have hnid : n.id = note_id := by
    have := List.find?_some hfind
    simpa using this
  have huid : (applyPatch n patch now).id = note_id := by rw [hap]; exact hnid
  have hstate : (update_note s note_id patch now).2
      = { s with notes := replaceById s.notes note_id (applyPatch n patch now) } := by
    simp [update_note, hfind]
  refine ⟨?_, ?_, ?_, ?_⟩
  · simp [update_note, hfind, hap]
  · rw [hstate]
    show (replaceById s.notes note_id (applyPatch n patch now)).find?
        (fun x => x.id == note_id) = _
    rw [replaceById_find_updated note_id (applyPatch n patch now) huid s.notes n hfind, hap]
  · intro j hj
    rw [hstate]
    show (replaceById s.notes note_id (applyPatch n patch now)).find?
        (fun x => x.id == j) = _
    exact replaceById_find_frame note_id j (applyPatch n patch now) huid hj s.notes
  · rw [hstate]

/-- C3 witness: patching only the title of the single stored note. -/
theorem update_replaces_patched_fields_witness :
    get_note (create_note initState { title := "A", content := "B", tags := none } 5).2 1
        = some (create_note initState { title := "A", content := "B", tags := none } 5).1
    ∧ (update_note (create_note initState { title := "A", content := "B", tags := none } 5).2 1
        { title := some "X", content := none, tags := none } 9).1
      = some { id := 1, title := "X", content := "B", tags := [],
               created_at := 5, updated_at := 9 } :=
  ⟨rfl,
   (update_replaces_patched_fields
      (create_note initState { title := "A", content := "B", tags := none } 5).2 1
      { title := some "X", content := none, tags := none } 9
      (create_note initState { title := "A", content := "B", tags := none } 5).1
      rfl (Or.inl rfl)).1⟩

/-- Erasing the entry under `m` leaves no entry under `m`, when the
stored ids are pairwise distinct. -/
theorem find?_eraseP_eq_none (m : Nat) :
    ∀ (l : List Note), (l.map Note.id).Nodup →
      (l.eraseP (fun n => n.id == m)).find? (fun n => n.id == m) = none := by
  intro l
  induction l with
  | nil => intro _; simp [List.eraseP]
  | cons x xs ih =>
      intro hnd
      rw [List.map_cons, List.nodup_cons] at hnd
      by_cases hx : (x.id == m) = true
      · have hxm : x.id = m := by simpa using hx
        simp only [List.eraseP_cons, hx, cond_true]
        refine List.find?_eq_none.mpr ?_
        intro y hy
        simp only [beq_iff_eq]
        intro hym
        exact hnd.1 (by rw [hxm, ← hym]; exact List.mem_map_of_mem Note.id hy)
      · simp only [List.eraseP_cons, hx, cond_false]
        rw [List.find?_cons_of_neg _ (by simpa using hx)]
        exact ih hnd.2

/-- Erasing the entry under `m` does not change what a lookup for any
other id `j` sees. -/
theorem find?_eraseP_frame (m j : Nat) (hj : j ≠ m) :
    ∀ (l : List Note),
      (l.eraseP (fun n => n.id == m)).find? (fun n => n.id == j)
        = l.find? (fun n => n.id == j) := by
  intro l
  induction l with
  | nil => simp [List.eraseP]
  | cons x xs ih =>
      by_cases hx : (x.id == m) = true
      · have hxm : x.id = m := by simpa using hx
        have hqx : ¬ ((x.id == j) = true) := by simp [hxm]; exact fun h => hj h.symm
        simp only [List.eraseP_cons, hx, cond_true]
        rw [List.find?_cons_of_neg (p := fun n => n.id == j) xs hqx]
      · simp only [List.eraseP_cons, hx, cond_false]
        by_cases hq : ((x.id == j) = true)
        · rw [List.find?_cons_of_pos (p := fun n => n.id == j)
              (List.eraseP (fun n => n.id == m) xs) hq,
            List.find?_cons_of_pos (p := fun n => n.id == j) xs hq]
        · rw [List.find?_cons_of_neg (p := fun n => n.id == j)
              (List.eraseP (fun n => n.id == m) xs) hq,
            List.find?_cons_of_neg (p := fun n => n.id == j) xs hq]
          exact ih

/-- C7: `delete` answers exactly presence; after a successful delete the
id resolves to nothing and a second delete answers false; a failed
delete leaves the state untouched; and no other id's lookup changes. -/
theorem delete_then_get (s : StoreState) (note_id : Nat) (hnd : idsNodup s) :
    (delete_note s note_id).1 = (get_note s note_id).isSome
    ∧ ((delete_note s note_id).1 = true →
        get_note (delete_note s note_id).2 note_id = none
        ∧ (delete_note (delete_note s note_id).2 note_id).1 = false)
    ∧ ((delete_note s note_id).1 = false → (delete_note s note_id).2 = s)
    ∧ (∀ j, j ≠ note_id →
        get_note (delete_note s note_id).2 j = get_note s j) := by
  by_cases hany : (s.notes.any (fun n => n.id == note_id)) = true
  · have hsome : (get_note s note_id).isSome = true :=
      List.find?_isSome.mpr (List.any_eq_true.mp hany)
    have hgone : (s.notes.eraseP (fun n => n.id == note_id)).find?
        (fun n => n.id == note_id) = none :=
      find?_eraseP_eq_none note_id s.notes hnd
    have hany2 : ((s.notes.eraseP (fun n => n.id == note_id)).any
        (fun n => n.id == note_id)) = false := by
      rw [Bool.eq_false_iff]
      intro hc
      rcases List.any_eq_true.mp hc with ⟨y, hy, hpy⟩
      exact (List.find?_eq_none.mp hgone y hy) hpy
    refine ⟨?_, ?_, ?_, ?_⟩
    · simp [delete_note, hany, hsome]
    · intro _
      constructor
      · simpa [delete_note, hany, get_note] using hgone
      · simp [delete_note, hany, hany2]
    · intro hfalse
      simp [delete_note, hany] at hfalse
    · intro j hj
      have := find?_eraseP_frame note_id j hj s.notes
      simpa [delete_note, hany, get_note] using this
  · have hnone : (get_note s note_id) = none := by
      refine List.find?_eq_none.mpr ?_
      intro y hy hpy
      exact hany (List.any_eq_true.mpr ⟨y, hy, hpy⟩)
    refine ⟨?_, ?_, ?_, ?_⟩
    · simp [delete_note, hany, hnone]
    · intro htrue
      simp [delete_note, hany] at htrue
    · intro _
      simp [delete_note, hany]
    · intro j hj
      simp [delete_note, hany]

/-- C7 witness: deleting the only note of a one-note store. -/
theorem delete_then_get_witness :
    idsNodup (create_note initState { title := "A", content := "B", tags := none } 5).2
    ∧ (delete_note (create_note initState { title := "A", content := "B", tags := none } 5).2 1).1
        = true
    ∧ get_note
        (delete_note (create_note initState { title := "A", content := "B", tags := none } 5).2 1).2 1
        = none := by
  have h := delete_then_get
    (create_note initState { title := "A", content := "B", tags := none } 5).2 1
    (by simp [idsNodup, initState, create_note])
  refine ⟨by simp [idsNodup, initState, create_note], ?_, ?_⟩
  · rw [h.1]; rfl
  · exact (h.2.1 (by rw [h.1]; rfl)).1

/-- The `seed` loop appends one note per iteration, with consecutive ids
starting at the current counter, payload fields taken from the running
0-based index, and advances the counter by the iteration count. -/
theorem seedLoop_spec (times : Nat → Nat) :
    ∀ (k i : Nat) (s : StoreState),
      (seedLoop s k i times).notes
        = s.notes ++ (List.range k).map (fun j => seedNote (s.nextId + j) (i + j) times)
      ∧ (seedLoop s k i times).nextId = s.nextId + k := by
  intro k
  induction k with
  | zero => intro i s; simp [seedLoop]
  | succ k ih =>
      intro i s
      have hstep : seedLoop s (k + 1) i times
          = seedLoop (create_note s (seedData i) (times i)).2 k (i + 1) times := rfl
      obtain ⟨hn, hx⟩ := ih (i + 1) ((create_note s (seedData i) (times i)).2)
      have hcn : (create_note s (seedData i) (times i)).2.notes
          = s.notes ++ [seedNote s.nextId i times] := rfl
      have hcx : (create_note s (seedData i) (times i)).2.nextId = s.nextId + 1 := rfl
      constructor
      · have htail : List.map (fun j => seedNote (s.nextId + 1 + j) (i + 1 + j) times)
            (List.range k)
            = List.map ((fun j => seedNote (s.nextId + j) (i + j) times) ∘ Nat.succ)
                (List.range k) := by
          refine List.map_congr_left ?_
          intro a _
          show seedNote (s.nextId + 1 + a) (i + 1 + a) times
              = seedNote (s.nextId + Nat.succ a) (i + Nat.succ a) times
          have e1 : s.nextId + 1 + a = s.nextId + Nat.succ a := by omega
          have e2 : i + 1 + a = i + Nat.succ a := by omega
          rw [e1, e2]
        have hhead : seedNote (s.nextId + 0) (i + 0) times = seedNote s.nextId i times := by
          rw [Nat.add_zero, Nat.add_zero]
        rw [hstep, hn, hcn, hcx, List.append_assoc, List.range_succ_eq_map, List.map_cons,
          List.map_map, List.singleton_append, htail, hhead]
      · rw [hstep, hx, hcx]
        omega

/-- The `seed` loop is the left fold of `create_note` over the index
range, i.e. it goes through the same path as `create`. -/
theorem seedLoop_eq_foldl (times : Nat → Nat) :
    ∀ (k i : Nat) (s : StoreState),
      seedLoop s k i times
        = (List.range' i k).foldl
            (fun st j => (create_note st (seedData j) (times j)).2) s := by
  intro k
  induction k with
  | zero => intro i s; simp [seedLoop]
  | succ k ih =>
      intro i s
      rw [List.range'_succ, List.foldl_cons]
      exact ih (i + 1) ((create_note s (seedData i) (times i)).2)

/-- C9: `seed(count)` returns `count`, evolves the state exactly as
`count` successive `create` calls on the synthetic payloads would
(same id and timestamp assignment path), and appends `count` notes with
consecutive ids, deterministic placeholder titles and contents, and
alternating tag sets: even 0-based index gets `sample, demo`, odd gets
`notes`. -/
theorem seed_creates_count_notes (s : StoreState) (count : Nat) (times : Nat → Nat) :
    (seed s count times).1 = count
    ∧ (seed s count times).2
        = (List.range count).foldl
            (fun st j => (create_note st (seedData j) (times j)).2) s
    ∧ (seed s count times).2.notes
        = s.notes ++ (List.range count).map (fun j =>
            { id := s.nextId + j
              title := "Sample Note " ++ toString (j + 1)
              content := "This is a sample note #" ++ toString (j + 1) ++ "."
              tags := if j % 2 == 0 then ["sample", "demo"] else ["notes"]
              created_at := times j
              updated_at := times j })
    ∧ (seed s count times).2.nextId = s.nextId + count := by
  obtain ⟨hn, hx⟩ := seedLoop_spec times count 0 s
  refine ⟨rfl, ?_, ?_, hx⟩
  · show seedLoop s count 0 times = _
    rw [seedLoop_eq_foldl times count 0 s, List.range_eq_range']
  · show (seedLoop s count 0 times).notes = _
    rw [hn]
    congr 1
    refine List.map_congr_left ?_
    intro j _
    show seedNote (s.nextId + j) (0 + j) times = _
    rw [Nat.zero_add]
    simp [seedNote, seedData]

/-- Members of the list after an in-place replacement are the
replacement or old members. -/
theorem mem_replaceById (m : Nat) (u : Note) :
    ∀ (l : List Note) (x : Note), x ∈ replaceById l m u → x = u ∨ x ∈ l := by
  intro l
  induction l with
  | nil => intro x hx; simp [replaceById] at hx
  | cons y ys ih =>
      intro x hx
      by_cases hy : (y.id == m) = true
      · simp only [replaceById, if_pos hy, List.mem_cons] at hx
        rcases hx with rfl | hx
        · exact Or.inl rfl
        · exact Or.inr (List.mem_cons_of_mem y hx)
      · simp only [replaceById, if_neg hy, List.mem_cons] at hx
        rcases hx with rfl | hx
        · exact Or.inr (List.mem_cons_self x ys)
        · rcases ih x hx with h | h
          · exact Or.inl h
          · exact Or.inr (List.mem_cons_of_mem y h)

/-- The logging seed runner drives the state exactly like the seed loop. -/
theorem seedRun_state (times : Nat → Nat) :
    ∀ (k i : Nat) (s : StoreState), (seedRun s k i times).2 = seedLoop s k i times := by
  intro k
  induction k with
  | zero => intro i s; rfl
  | succ k ih => intro i s; exact ih (i + 1) ((create_note s (seedData i) (times i)).2)

/-- The ids logged by the seed runner are the consecutive counter values
of its iterations. -/
theorem seedRun_log (times : Nat → Nat) :
    ∀ (k i : Nat) (s : StoreState), (seedRun s k i times).1 = List.range' s.nextId k := by
  intro k
  induction k with
  | zero => intro i s; rfl
  | succ k ih =>
      intro i s
      have hrec := ih (i + 1) ((create_note s (seedData i) (times i)).2)
      have hshape : (seedRun s (k + 1) i times).1
          = s.nextId :: (seedRun (create_note s (seedData i) (times i)).2 k (i + 1) times).1 := rfl
      rw [hshape, hrec, List.range'_succ]
      rfl

/-- C10: the id-range invariant (counter at least 1, every stored id in
`[1, nextId)`) holds in the initial state and is preserved by every
operation. -/
theorem store_invariant_preserved (op : Op) (s : StoreState) (h : idsBounded s) :
    idsBounded (applyOp s op) ∧ idsBounded initState := by
  refine ⟨?_, ⟨Nat.le_refl 1, by simp [initState]⟩⟩
  cases op with
  | createOp d now =>
      constructor
      · show 1 ≤ s.nextId + 1
        omega
      · intro n hn
        have hmem : n ∈ s.notes ++ [(create_note s d now).1] := hn
        rcases List.mem_append.mp hmem with hold | hnew
        · have hb := h.2 n hold
          show 1 ≤ n.id ∧ n.id < s.nextId + 1
          omega
        · have heq : n = (create_note s d now).1 := by simpa using hnew
          subst heq
          show 1 ≤ s.nextId ∧ s.nextId < s.nextId + 1
          exact ⟨h.1, Nat.lt_succ_self _⟩
  | getOp i => exact h
  | listOp q page page_size => exact h
  | updateOp i p now =>
      rcases hfd : s.notes.find? (fun n => n.id == i) with _ | ex
      · have hstate : applyOp s (.updateOp i p now) = s := by
          simp [applyOp, opRun, update_note, hfd]
        rw [hstate]; exact h
      · have hstate : applyOp s (.updateOp i p now)
            = { s with notes := replaceById s.notes i (applyPatch ex p now) } := by
          simp [applyOp, opRun, update_note, hfd]
        rw [hstate]
        refine ⟨h.1, ?_⟩
        intro n hn
        rcases mem_replaceById i (applyPatch ex p now) s.notes n hn with rfl | hmem
        · have hex : ex ∈ s.notes := List.mem_of_find?_eq_some hfd
          have hid : (applyPatch ex p now).id = ex.id := rfl
          rw [hid]
          exact h.2 ex hex
        · exact h.2 n hmem
  | deleteOp i =>
      by_cases hany : (s.notes.any (fun n => n.id == i)) = true
      · have hstate : applyOp s (.deleteOp i)
            = { s with notes := s.notes.eraseP (fun n => n.id == i) } := by
          simp [applyOp, opRun, delete_note, hany]
        rw [hstate]
        exact ⟨h.1, fun n hn => h.2 n ((List.eraseP_sublist s.notes).subset hn)⟩
      · have hstate : applyOp s (.deleteOp i) = s := by
          simp [applyOp, opRun, delete_note, hany]
        rw [hstate]; exact h
  | seedOp c times =>
      have hstate : applyOp s (.seedOp c times) = seedLoop s c 0 times :=
        seedRun_state times c 0 s
      obtain ⟨hn, hx⟩ := seedLoop_spec times c 0 s
      rw [hstate]
      constructor
      · rw [hx]
        have := h.1
        omega
      · intro n hmem
        rw [hn] at hmem
        rcases List.mem_append.mp hmem with hold | hnew
        · have := h.2 n hold
          rw [hx]
          omega
        · rcases List.mem_map.mp hnew with ⟨j, hj, rfl⟩
          have hjlt : j < c := List.mem_range.mp hj
          have h1 := h.1
          rw [hx]
          constructor
          · show 1 ≤ s.nextId + j
            omega
          · show s.nextId + j < s.nextId + c
            omega
  | resetOp =>
      exact ⟨Nat.le_refl 1, by simp [applyOp, opRun, reset]⟩

/-- C10 witness: the reset operation from the initial state. -/
theorem store_invariant_preserved_witness :
    idsBounded initState ∧ idsBounded (applyOp initState Op.resetOp) :=
  ⟨⟨Nat.le_refl 1, by simp [initState]⟩,
   (store_invariant_preserved Op.resetOp initState
      ⟨Nat.le_refl 1, by simp [initState]⟩).1⟩

/-- Every operation except `reset` keeps the id counter from
decreasing. -/
theorem opRun_nextId_mono (op : Op) (s : StoreState) (hop : op ≠ Op.resetOp) :
    s.nextId ≤ (opRun s op).2.nextId := by
  cases op with
  | createOp d now => exact Nat.le_succ _
  | getOp i => exact Nat.le_refl _
  | listOp q page page_size => exact Nat.le_refl _
  | updateOp i p now =>
      rcases hfd : s.notes.find? (fun n => n.id == i) with _ | ex
      · simp [opRun, update_note, hfd]
      · simp [opRun, update_note, hfd]
  | deleteOp i =>
      by_cases hany : (s.notes.any (fun n => n.id == i)) = true
      · simp [opRun, delete_note, hany]
      · simp [opRun, delete_note, hany]
  | seedOp c times =>
      have hstate : (opRun s (.seedOp c times)).2 = seedLoop s c 0 times :=
        seedRun_state times c 0 s
      rw [hstate, (seedLoop_spec times c 0 s).2]
      exact Nat.le_add_right _ _
  | resetOp => exact absurd rfl hop

/-- The ids an operation logs are strictly increasing and lie between
the counter before and the counter after the operation. -/
theorem opRun_log_spec (op : Op) (s : StoreState) :
    List.Pairwise (· < ·) (opRun s op).1
    ∧ ∀ x ∈ (opRun s op).1, s.nextId ≤ x ∧ x < (opRun s op).2.nextId := by
  cases op with
  | createOp d now =>
      refine ⟨List.pairwise_singleton _ _, ?_⟩
      intro x hx
      have : x = s.nextId := by simpa [opRun] using hx
      subst this
      exact ⟨Nat.le_refl _, Nat.lt_succ_self _⟩
  | getOp i => exact ⟨List.Pairwise.nil, by intro x hx; simp [opRun] at hx⟩
  | listOp q page page_size => exact ⟨List.Pairwise.nil, by intro x hx; simp [opRun] at hx⟩
  | updateOp i p now => exact ⟨List.Pairwise.nil, by intro x hx; simp [opRun] at hx⟩
  | deleteOp i => exact ⟨List.Pairwise.nil, by intro x hx; simp [opRun] at hx⟩
  | seedOp c times =>
      have hlog : (opRun s (.seedOp c times)).1 = List.range' s.nextId c :=
        seedRun_log times c 0 s
      have hstate : (opRun s (.seedOp c times)).2 = seedLoop s c 0 times :=
        seedRun_state times c 0 s
      constructor
      · rw [hlog]
        exact List.pairwise_lt_range' _ _
      · intro x hx
        rw [hlog] at hx
        have := List.mem_range'_1.mp hx
        rw [hstate, (seedLoop_spec times c 0 s).2]
        exact this
  | resetOp => exact ⟨List.Pairwise.nil, by intro x hx; simp [opRun] at hx⟩

/-- Running a reset-free sequence logs strictly increasing ids, all at
least the starting counter and below the final counter, which never
decreases. -/
theorem runOps_spec :
    ∀ (ops : List Op) (s : StoreState), Op.resetOp ∉ ops →
      List.Pairwise (· < ·) (runOps s ops).1
      ∧ (∀ x ∈ (runOps s ops).1, s.nextId ≤ x ∧ x < (runOps s ops).2.nextId)
      ∧ s.nextId ≤ (runOps s ops).2.nextId := by
  intro ops
  induction ops with
  | nil =>
      intro s _
      exact ⟨List.Pairwise.nil, by intro x hx; simp [runOps] at hx, Nat.le_refl _⟩
  | cons op ops ih =>
      intro s hmem
      have hop : op ≠ Op.resetOp := by
        intro hc
        exact hmem (by rw [hc]; exact List.mem_cons_self _ _)
      have hops : Op.resetOp ∉ ops := fun hc => hmem (List.mem_cons_of_mem op hc)
      obtain ⟨ihp, ihb, ihm⟩ := ih (opRun s op).2 hops
      obtain ⟨hp1, hb1⟩ := opRun_log_spec op s
      have hmono : s.nextId ≤ (opRun s op).2.nextId := opRun_nextId_mono op s hop
      have hlog : (runOps s (op :: ops)).1
          = (opRun s op).1 ++ (runOps (opRun s op).2 ops).1 := rfl
      have hfin : (runOps s (op :: ops)).2 = (runOps (opRun s op).2 ops).2 := rfl
      refine ⟨?_, ?_, ?_⟩
      · rw [hlog]
        refine List.pairwise_append.mpr ⟨hp1, ihp, ?_⟩
        intro a ha b hb
        exact Nat.lt_of_lt_of_le (hb1 a ha).2 (ihb b hb).1
      · intro x hx
        rw [hlog] at hx
        rw [hfin]
        rcases List.mem_append.mp hx with h1 | h2
        · have := hb1 x h1
          exact ⟨this.1, Nat.lt_of_lt_of_le this.2 ihm⟩
        · have := ihb x h2
          exact ⟨Nat.le_trans hmono this.1, this.2⟩
      · rw [hfin]
        exact Nat.le_trans hmono ihm

/-- C1: over any sequence of operations containing no reset, the ids
handed out by the create calls (directly or through seed) are strictly
increasing, never repeat, and the counter never rewinds. -/
theorem create_ids_strictly_increase (ops : List Op) (s : StoreState)
    (h : Op.resetOp ∉ ops) :
    List.Pairwise (· < ·) (runOps s ops).1
    ∧ (runOps s ops).1.Nodup
    ∧ s.nextId ≤ (runOps s ops).2.nextId := by
  obtain ⟨hp, _, hm⟩ := runOps_spec ops s h
  exact ⟨hp, hp.imp (fun hij => Nat.ne_of_lt hij), hm⟩

/-- C1 witness: create, delete, create again, then seed two — the logged
ids 1, 2, 3, 4 are strictly increasing. -/
theorem create_ids_strictly_increase_witness :
    Op.resetOp ∉ [Op.createOp { title := "A", content := "B", tags := none } 0,
        Op.deleteOp 1,
        Op.createOp { title := "C", content := "D", tags := none } 1,
        Op.seedOp 2 (fun t => t)]
    ∧ List.Pairwise (· < ·)
        (runOps initState
          [Op.createOp { title := "A", content := "B", tags := none } 0,
           Op.deleteOp 1,
           Op.createOp { title := "C", content := "D", tags := none } 1,
           Op.seedOp 2 (fun t => t)]).1 :=
  ⟨by simp,
   (create_ids_strictly_increase
      [Op.createOp { title := "A", content := "B", tags := none } 0,
       Op.deleteOp 1,
       Op.createOp { title := "C", content := "D", tags := none } 1,
       Op.seedOp 2 (fun t => t)]
      initState (by simp)).1⟩

/-- Division remainder bound: any `a` is below the next multiple of `b`
after `a / b`. -/
theorem lt_div_succ_mul (a b : Nat) (hb : 0 < b) : a < (a / b + 1) * b := by
  have hdm := Nat.div_add_mod a b
  have hm : a % b < b := Nat.mod_lt a hb
  calc a = b * (a / b) + a % b := hdm.symm
    _ < b * (a / b) + b := Nat.add_lt_add_left hm _
    _ = b * (a / b + 1) := (Nat.mul_succ b (a / b)).symm
    _ = (a / b + 1) * b := Nat.mul_comm _ _

/-- The ceiling page count times the page size covers the whole list
length. -/
theorem le_ceil_mul (L ps : Nat) (hps : 1 ≤ ps) : L ≤ ((L + ps - 1) / ps) * ps := by
  rcases Nat.eq_zero_or_pos L with rfl | hL
  · exact Nat.zero_le _
  · have h1 : L + ps - 1 = (L - 1) + ps := by omega
    rw [h1, Nat.add_div_right _ (by omega : 0 < ps)]
    exact Nat.le_of_pred_lt (lt_div_succ_mul (L - 1) ps (by omega))

/-- Concatenating the page slices of sizes `ps` over enough pages
reassembles the list. -/
theorem flatMap_take_drop {α : Type} (ps : Nat) :
    ∀ (n : Nat) (l : List α), l.length ≤ n * ps →
      (List.range n).flatMap (fun p => (l.drop (p * ps)).take ps) = l := by
  intro n
  induction n with
  | zero =>
      intro l hl
      have h0 : l = [] := List.eq_nil_of_length_eq_zero (by omega)
      subst h0
      rfl
  | succ n ih =>
      intro l hl
      rw [Nat.succ_mul] at hl
      simp only [List.range_succ_eq_map, List.flatMap_cons, List.flatMap_map]
      have hfun : (fun a => (l.drop (Nat.succ a * ps)).take ps)
          = (fun a => (((l.drop ps).drop (a * ps)).take ps)) := by
        funext a
        rw [List.drop_drop, Nat.succ_mul, Nat.add_comm (a * ps) ps]
      have hlen : (l.drop ps).length ≤ n * ps := by
        rw [List.length_drop]
        exact Nat.sub_le_iff_le_add.mpr hl
      rw [hfun, ih (l.drop ps) hlen, Nat.zero_mul, List.drop_zero, List.take_append_drop]

/-- C5: for any query and page size in `[1, 100]`, concatenating the
items of pages `1 .. ceil(total / pageSize)` yields exactly the filtered
note list (no duplicate entries by id, no omissions), and every page
reports the pre-pagination match count as `total`. -/
theorem pagination_complete (s : StoreState) (q : Option String) (page_size : Nat)
    (hps : 1 ≤ page_size) (hps100 : page_size ≤ 100) (hnd : idsNodup s) :
    (List.range' 1 (((filteredNotes s q).length + page_size - 1) / page_size)).flatMap
        (fun p => (list_notes s q p page_size).items)
      = filteredNotes s q
    ∧ (∀ p, (list_notes s q p page_size).total = (filteredNotes s q).length)
    ∧ ((filteredNotes s q).map Note.id).Nodup := by
  refine ⟨?_, fun p => rfl, ?_⟩
  · rw [List.range'_eq_map_range, List.flatMap_map]
    have hfun : (fun a => (list_notes s q (1 + a) page_size).items)
        = (fun a => ((filteredNotes s q).drop (a * page_size)).take page_size) := by
      funext a
      show ((filteredNotes s q).drop ((1 + a - 1) * page_size)).take page_size = _
      have h1 : 1 + a - 1 = a := by omega
      rw [h1]
    rw [hfun]
    exact flatMap_take_drop page_size _ (filteredNotes s q)
      (le_ceil_mul (filteredNotes s q).length page_size hps)
  · have hsub : (filteredNotes s q).Sublist s.notes := by
      cases q with
      | none => exact List.Sublist.refl _
      | some qs =>
          by_cases he : qs.data.isEmpty = true
          · simp only [filteredNotes, if_pos he]
            exact List.Sublist.refl _
          · simp only [filteredNotes, if_neg he]
            exact List.filter_sublist _
    exact List.Nodup.sublist (hsub.map Note.id) hnd

/-- C5 witness: a two-note store, no query, page size 1. -/
theorem pagination_complete_witness :
    idsNodup (create_note (create_note initState
        { title := "A", content := "B", tags := none } 0).2
        { title := "C", content := "D", tags := none } 1).2
    ∧ (List.range' 1
        (((filteredNotes (create_note (create_note initState
            { title := "A", content := "B", tags := none } 0).2
            { title := "C", content := "D", tags := none } 1).2 none).length + 1 - 1) / 1)).flatMap
        (fun p => (list_notes (create_note (create_note initState
            { title := "A", content := "B", tags := none } 0).2
            { title := "C", content := "D", tags := none } 1).2 none p 1).items)
      = filteredNotes (create_note (create_note initState
          { title := "A", content := "B", tags := none } 0).2
          { title := "C", content := "D", tags := none } 1).2 none :=
  ⟨by simp [idsNodup, initState, create_note],
   (pagination_complete (create_note (create_note initState
      { title := "A", content := "B", tags := none } 0).2
      { title := "C", content := "D", tags := none } 1).2 none 1
      (Nat.le_refl 1) (by omega)
      (by simp [idsNodup, initState, create_note])).1⟩

/-- C6: a non-empty query filters to exactly the notes whose current
title or content contains the query as a case-insensitive substring
(checked against the stored field values), with pagination applied after
the filter; a note titled "Hello World" matches both the query "hello"
and the query "WORLD". -/
theorem search_case_insensitive (s : StoreState) (q : String) (hq : q.data ≠ [])
    (page page_size : Nat) :
    (list_notes s (some q) page page_size).total
        = (s.notes.filter (matchesQuery (lowerChars q))).length
    ∧ (list_notes s (some q) page page_size).items
        = ((s.notes.filter (matchesQuery (lowerChars q))).drop
            ((page - 1) * page_size)).take page_size
    ∧ (∀ n : Note, matchesQuery (lowerChars q) n = true
          ↔ (lowerChars q <:+: lowerChars n.title ∨ lowerChars q <:+: lowerChars n.content))
    ∧ (∀ n : Note, n.title = "Hello World" →
          matchesQuery (lowerChars "hello") n = true
          ∧ matchesQuery (lowerChars "WORLD") n = true) := by
  have he : q.data.isEmpty = false := List.isEmpty_eq_false.mpr hq
  have hfil : filteredNotes s (some q) = s.notes.filter (matchesQuery (lowerChars q)) := by
    simp only [filteredNotes, he]
    rfl
  refine ⟨?_, ?_, ?_, ?_⟩
  · show (filteredNotes s (some q)).length = _
    rw [hfil]
  · show ((filteredNotes s (some q)).drop _).take _ = _
    rw [hfil]
  · intro n
    simp [matchesQuery]
  · intro n ht
    have h1 : (lowerChars "hello" <:+: lowerChars "Hello World") := by decide
    have h2 : (lowerChars "WORLD" <:+: lowerChars "Hello World") := by decide
    constructor
    · simp only [matchesQuery, Bool.or_eq_true, decide_eq_true_iff]
      exact Or.inl (by rw [ht]; exact h1)
    · simp only [matchesQuery, Bool.or_eq_true, decide_eq_true_iff]
      exact Or.inl (by rw [ht]; exact h2)

/-- C6 witness: a store holding a "Hello World" note, searched with the
query "hello". -/
theorem search_case_insensitive_witness :
    "hello".data ≠ []
    ∧ (list_notes (create_note initState
        { title := "Hello World", content := "Body", tags := none } 3).2
        (some "hello") 1 10).total
      = ((create_note initState
          { title := "Hello World", content := "Body", tags := none } 3).2.notes.filter
          (matchesQuery (lowerChars "hello"))).length :=
  ⟨by decide,
   (search_case_insensitive (create_note initState
      { title := "Hello World", content := "Body", tags := none } 3).2
      "hello" (by decide) 1 10).1⟩

end NotesApi
